import Mathlib

/-!
Verification of the test-discovery-and-extraction pipeline
(`lesson_1.py`, `lesson_3.py`, `lesson_6.py`).

The pipeline is embedded shallowly: the filesystem and the AI summarizer are
external collaborators, so a source file is modelled as a record of its path,
an existence flag, a readability flag and its list of lines (each line given
without its terminating newline), and the summarizer is a parameter of type
`String → Except String String` (prompt in, purpose out or error message).
Python regular expressions are embedded as executable backtracking matchers
over `List Char` that realize exactly the patterns appearing in the source;
Python `str.lower` / `re.IGNORECASE` are modelled by `Char.toLower` (the
sources and the data are ASCII, where the two agree), and the character
classes `\w` and `\s` are modelled by their ASCII parts.
-/

namespace TestExtract

/-- ASCII part of Python's `\w` character class: `[a-zA-Z0-9_]`. -/
def isWordChar (c : Char) : Bool := c.isAlphanum || c == '_'

/-- ASCII part of Python's `\s` character class: `[ \t\n\r\f\v]`. -/
def isSpaceChar (c : Char) : Bool :=
  c == ' ' || c == '\t' || c == '\n' || c == '\r' || c == '\x0b' || c == '\x0c'

/-- `litAt pat cs`: the literal `pat` occurs at the head of `cs`. -/
def litAt : List Char → List Char → Bool
  | [], _ => true
  | _ :: _, [] => false
  | p :: ps, c :: cs => p == c && litAt ps cs

/-- Search combinator for boolean matchers: does `p` hold on some suffix
(`re.search` tries every start position, including the end of the string)? -/
def searchB (p : List Char → Bool) : List Char → Bool
  | [] => p []
  | c :: cs => p (c :: cs) || searchB p cs

/-- Substring containment, as Python's `pat in s`. -/
def containsSub (pat : List Char) (cs : List Char) : Bool :=
  searchB (litAt pat) cs

/-- Matcher for the regex fragment `\s*\(` at the head of the input. -/
def matchWSParen : List Char → Bool
  | [] => false
  | c :: rest => c == '(' || (isSpaceChar c && matchWSParen rest)

/-- Matcher for the regex fragment `\w+\s*\(` at the head of the input
(with full backtracking over the length taken by `\w+`). -/
def matchWordTail : List Char → Bool
  | [] => false
  | c :: rest => isWordChar c && (matchWSParen rest || matchWordTail rest)

/-- Matcher for the regex fragment `test\w+\s*\(` at the head of the input. -/
def matchTestTail (cs : List Char) : Bool :=
  litAt "test".toList cs && matchWordTail (cs.drop 4)

/-- Matcher for `.*test\w+\s*\(` at the head of the input; `.` does not match
a newline, so the characters skipped by `.*` must all differ from `'\n'`. -/
def dotStarTest : List Char → Bool
  | [] => false
  | c :: rest => matchTestTail (c :: rest) || (c != '\n' && dotStarTest rest)

/-- Matcher for `(public|private|protected).*test\w+\s*\(` at the head of the
input (alternatives tried in the source order; at most one can apply). -/
def modDotStarTest (cs : List Char) : Bool :=
  (litAt "public".toList cs && dotStarTest (cs.drop 6)) ||
  (litAt "private".toList cs && dotStarTest (cs.drop 7)) ||
  (litAt "protected".toList cs && dotStarTest (cs.drop 9))

/-- `re.search(r'(public|private|protected).*test\w+\s*\(', line, re.IGNORECASE)`:
the `IGNORECASE` flag is realized by lowering the subject string (the pattern's
literals are already lower case and its classes are closed under case). -/
def javaRegexSearch (cs : List Char) : Bool :=
  searchB modDotStarTest (cs.map Char.toLower)

/-- The per-line acceptance test of `extract_test_methods`
(`lesson_1.py` line 26 / `lesson_6.py` line 50):
`re.search(r'(public|private|protected).*test\w+\s*\(', line, re.IGNORECASE)
 or '@Test' in line`. -/
def extract_line_matches (line : String) : Bool :=
  javaRegexSearch line.toList || containsSub "@Test".toList line.toList

/-- `extract_test_methods` (`lesson_1.py` 21–28 / `lesson_6.py` 45–52): keep
the grep output lines that pass the acceptance test, in order. -/
def extract_test_methods (test_lines : List String) : List String :=
  test_lines.filter extract_line_matches

end TestExtract

namespace TestExtract

/-- The three Java access-modifier tokens, as character lists. -/
def javaModifiers : List (List Char) :=
  ["public".toList, "private".toList, "protected".toList]

theorem litAt_iff {p cs : List Char} : litAt p cs = true ↔ ∃ rest, cs = p ++ rest := by
  induction p generalizing cs with
  | nil => simp [litAt]
  | cons a ps ih =>
    cases cs with
    | nil => simp [litAt]
    | cons c cs' =>
      simp only [litAt, Bool.and_eq_true, beq_iff_eq, ih, List.cons_append, List.cons.injEq]
      constructor
      · rintro ⟨rfl, rest, rfl⟩
        exact ⟨rest, rfl, rfl⟩
      · rintro ⟨rest, rfl, rfl⟩
        exact ⟨rfl, rest, rfl⟩

theorem litAt_self {p rest : List Char} : litAt p (p ++ rest) = true :=
  litAt_iff.mpr ⟨rest, rfl⟩

theorem searchB_iff {p : List Char → Bool} {cs : List Char} :
    searchB p cs = true ↔ ∃ pre rest, cs = pre ++ rest ∧ p rest = true := by
  induction cs with
  | nil =>
    constructor
    · intro h
      exact ⟨[], [], rfl, h⟩
    · rintro ⟨pre, rest, heq, hp⟩
      rcases List.append_eq_nil.mp heq.symm with ⟨rfl, rfl⟩
      exact hp
  | cons c cs' ih =>
    simp only [searchB, Bool.or_eq_true, ih]
    constructor
    · rintro (h | ⟨pre, rest, rfl, hp⟩)
      · exact ⟨[], c :: cs', rfl, h⟩
      · exact ⟨c :: pre, rest, rfl, hp⟩
    · rintro ⟨pre, rest, heq, hp⟩
      cases pre with
      | nil => exact Or.inl (heq ▸ hp)
      | cons a pre' =>
        rcases List.cons.injEq .. ▸ heq with ⟨rfl, rfl⟩
        exact Or.inr ⟨pre', rest, rfl, hp⟩

theorem containsSub_iff {pat cs : List Char} :
    containsSub pat cs = true ↔ ∃ pre post, cs = pre ++ pat ++ post := by
  simp only [containsSub, searchB_iff, litAt_iff]
  constructor
  · rintro ⟨pre, rest, rfl, post, rfl⟩
    exact ⟨pre, post, (List.append_assoc ..).symm⟩
  · rintro ⟨pre, post, rfl⟩
    exact ⟨pre, pat ++ post, List.append_assoc .., post, rfl⟩

theorem matchWSParen_sound {cs : List Char} (h : matchWSParen cs = true) :
    ∃ ws post, cs = ws ++ '(' :: post ∧ ∀ c ∈ ws, isSpaceChar c = true := by
  induction cs with
  | nil => simp [matchWSParen] at h
  | cons c rest ih =>
    simp only [matchWSParen, Bool.or_eq_true, Bool.and_eq_true, beq_iff_eq] at h
    rcases h with rfl | ⟨hsp, h⟩
    · exact ⟨[], rest, rfl, by simp⟩
    · obtain ⟨ws, post, rfl, hws⟩ := ih h
      refine ⟨c :: ws, post, rfl, ?_⟩
      intro d hd
      rcases List.mem_cons.mp hd with rfl | hd
      · exact hsp
      · exact hws d hd

theorem matchWSParen_complete {ws post : List Char} (hws : ∀ c ∈ ws, isSpaceChar c = true) :
    matchWSParen (ws ++ '(' :: post) = true := by
  induction ws with
  | nil => simp [matchWSParen]
  | cons c ws' ih =>
    simp only [List.cons_append, matchWSParen, Bool.or_eq_true, Bool.and_eq_true]
    exact Or.inr ⟨hws c (List.mem_cons_self ..), ih fun d hd => hws d (List.mem_cons_of_mem _ hd)⟩

theorem matchWordTail_sound {cs : List Char} (h : matchWordTail cs = true) :
    ∃ w ws post, cs = w ++ ws ++ '(' :: post ∧ w ≠ [] ∧
      (∀ c ∈ w, isWordChar c = true) ∧ ∀ c ∈ ws, isSpaceChar c = true := by
  induction cs with
  | nil => simp [matchWordTail] at h
  | cons c rest ih =>
    simp only [matchWordTail, Bool.and_eq_true, Bool.or_eq_true] at h
    rcases h with ⟨hw, h | h⟩
    · obtain ⟨ws, post, rfl, hws⟩ := matchWSParen_sound h
      exact ⟨[c], ws, post, rfl, by simp, by simpa using hw, hws⟩
    · obtain ⟨w, ws, post, rfl, _, hword, hws⟩ := ih h
      refine ⟨c :: w, ws, post, rfl, by simp, ?_, hws⟩
      intro d hd
      rcases List.mem_cons.mp hd with rfl | hd
      · exact hw
      · exact hword d hd

theorem matchWordTail_complete {w ws post : List Char} (hne : w ≠ [])
    (hword : ∀ c ∈ w, isWordChar c = true) (hws : ∀ c ∈ ws, isSpaceChar c = true) :
    matchWordTail (w ++ ws ++ '(' :: post) = true := by
  induction w with
  | nil => exact absurd rfl hne
  | cons c w' ih =>
    simp only [List.cons_append, matchWordTail, Bool.and_eq_true, Bool.or_eq_true]
    refine ⟨hword c (List.mem_cons_self ..), ?_⟩
    cases w' with
    | nil => exact Or.inl (matchWSParen_complete hws)
    | cons d w'' =>
      exact Or.inr (ih (by simp) fun e he => hword e (List.mem_cons_of_mem _ he))

theorem drop_length_append {α : Type} (p rest : List α) (n : Nat) (h : p.length = n) :
    (p ++ rest).drop n = rest := by
  subst h
  exact List.drop_left ..

theorem matchTestTail_iff {cs : List Char} :
    matchTestTail cs = true ↔ ∃ rest, cs = "test".toList ++ rest ∧ matchWordTail rest = true := by
  simp only [matchTestTail, Bool.and_eq_true, litAt_iff]
  constructor
  · rintro ⟨⟨rest, rfl⟩, h⟩
    refine ⟨rest, rfl, ?_⟩
    rwa [drop_length_append "test".toList rest 4 rfl] at h
  · rintro ⟨rest, rfl, h⟩
    exact ⟨⟨rest, rfl⟩, by rwa [drop_length_append "test".toList rest 4 rfl]⟩

theorem dotStarTest_sound {cs : List Char} (h : dotStarTest cs = true) :
    ∃ gap rest, cs = gap ++ rest ∧ (∀ c ∈ gap, c ≠ '\n') ∧ matchTestTail rest = true := by
  induction cs with
  | nil => simp [dotStarTest] at h
  | cons c rest ih =>
    simp only [dotStarTest, Bool.or_eq_true, Bool.and_eq_true, bne_iff_ne] at h
    rcases h with h | ⟨hnl, h⟩
    · exact ⟨[], c :: rest, rfl, by simp, h⟩
    · obtain ⟨gap, rest', rfl, hgap, ht⟩ := ih h
      refine ⟨c :: gap, rest', rfl, ?_, ht⟩
      intro d hd
      rcases List.mem_cons.mp hd with rfl | hd
      · exact hnl
      · exact hgap d hd

theorem dotStarTest_complete {gap rest : List Char} (hgap : ∀ c ∈ gap, c ≠ '\n')
    (h : matchTestTail rest = true) : dotStarTest (gap ++ rest) = true := by
  induction gap with
  | nil =>
    cases rest with
    | nil => simp [matchTestTail, litAt] at h
    | cons c rest' => simpa [dotStarTest] using Or.inl h
  | cons c gap' ih =>
    simp only [List.cons_append, dotStarTest, Bool.or_eq_true, Bool.and_eq_true, bne_iff_ne]
    exact Or.inr ⟨hgap c (List.mem_cons_self ..), ih fun d hd => hgap d (List.mem_cons_of_mem _ hd)⟩

theorem modDotStarTest_iff {cs : List Char} :
    modDotStarTest cs = true ↔
      ∃ m rest, cs = m ++ rest ∧ m ∈ javaModifiers ∧ dotStarTest rest = true := by
  constructor
  · intro h
    simp only [modDotStarTest, Bool.or_eq_true, Bool.and_eq_true] at h
    rcases h with (⟨hl, hd⟩ | ⟨hl, hd⟩) | ⟨hl, hd⟩
    · obtain ⟨rest, rfl⟩ := litAt_iff.mp hl
      exact ⟨_, rest, rfl, by simp [javaModifiers],
        by rwa [drop_length_append "public".toList rest 6 rfl] at hd⟩
    · obtain ⟨rest, rfl⟩ := litAt_iff.mp hl
      exact ⟨_, rest, rfl, by simp [javaModifiers],
        by rwa [drop_length_append "private".toList rest 7 rfl] at hd⟩
    · obtain ⟨rest, rfl⟩ := litAt_iff.mp hl
      exact ⟨_, rest, rfl, by simp [javaModifiers],
        by rwa [drop_length_append "protected".toList rest 9 rfl] at hd⟩
  · rintro ⟨m, rest, rfl, hm, hd⟩
    have hcases : m = "public".toList ∨ m = "private".toList ∨ m = "protected".toList := by
      simpa [javaModifiers] using hm
    simp only [modDotStarTest, Bool.or_eq_true, Bool.and_eq_true]
    rcases hcases with rfl | rfl | rfl
    · exact Or.inl (Or.inl ⟨litAt_self,
        by rwa [drop_length_append "public".toList rest 6 rfl]⟩)
    · exact Or.inl (Or.inr ⟨litAt_self,
        by rwa [drop_length_append "private".toList rest 7 rfl]⟩)
    · exact Or.inr ⟨litAt_self,
        by rwa [drop_length_append "protected".toList rest 9 rfl]⟩

/-- The language of the code's acceptance regex
`(public|private|protected).*test\w+\s*\(` under `re.IGNORECASE`, expressed as
a decomposition of the case-lowered line: an access modifier, then a run of
non-newline characters, then `test`, then a nonempty run of word characters,
then whitespace, then `'('`. -/
def JavaRegexDecomp (cs : List Char) : Prop :=
  ∃ pre m gap w ws post,
    cs.map Char.toLower = pre ++ m ++ gap ++ "test".toList ++ w ++ ws ++ '(' :: post ∧
    m ∈ javaModifiers ∧ w ≠ [] ∧ (∀ c ∈ w, isWordChar c = true) ∧
    (∀ c ∈ ws, isSpaceChar c = true) ∧ ∀ c ∈ gap, c ≠ '\n'

theorem javaRegexSearch_iff {cs : List Char} :
    javaRegexSearch cs = true ↔ JavaRegexDecomp cs := by
  constructor
  · intro h
    obtain ⟨pre, rest, hsplit, hmod⟩ := searchB_iff.mp h
    obtain ⟨m, rest₁, rfl, hm, hdot⟩ := modDotStarTest_iff.mp hmod
    obtain ⟨gap, rest₂, rfl, hgap, htest⟩ := dotStarTest_sound hdot
    obtain ⟨rest₃, rfl, hword⟩ := matchTestTail_iff.mp htest
    obtain ⟨w, ws, post, rfl, hne, hw, hws⟩ := matchWordTail_sound hword
    exact ⟨pre, m, gap, w, ws, post, by simpa [List.append_assoc] using hsplit,
      hm, hne, hw, hws, hgap⟩
  · rintro ⟨pre, m, gap, w, ws, post, hsplit, hm, hne, hw, hws, hgap⟩
    refine searchB_iff.mpr ⟨pre, m ++ (gap ++ ("test".toList ++ (w ++ ws ++ '(' :: post))),
      by simpa [List.append_assoc] using hsplit, ?_⟩
    refine modDotStarTest_iff.mpr ⟨m, _, rfl, hm, ?_⟩
    refine dotStarTest_complete hgap ?_
    refine matchTestTail_iff.mpr ⟨_, rfl, ?_⟩
    exact matchWordTail_complete hne hw hws

/-- Occurrence of the literal annotation marker `@Test` (the code checks it
case-sensitively with Python's `in`). -/
def AtTestDecomp (cs : List Char) : Prop :=
  ∃ pre post, cs = pre ++ "@Test".toList ++ post

theorem atTest_iff {cs : List Char} :
    containsSub "@Test".toList cs = true ↔ AtTestDecomp cs := containsSub_iff

/-- Matcher for `\w*\s*\(` at the head of the input: zero or more word
characters, then whitespace, then `'('`. -/
def claimWordStarTail : List Char → Bool
  | [] => false
  | c :: rest =>
    c == '(' || (isWordChar c && claimWordStarTail rest) || (isSpaceChar c && matchWSParen rest)

/-- Matcher for the claimed test token: four characters that lower to `test`
(case-insensitive), then `\w*\s*\(` — an identifier merely starting with
`test`, so a bare `test(` qualifies. -/
def claimTestTail (cs : List Char) : Bool :=
  litAt "test".toList (cs.map Char.toLower) && claimWordStarTail (cs.drop 4)

/-- Matcher for `.*` followed by the claimed test token. -/
def claimDotStarTest : List Char → Bool
  | [] => false
  | c :: rest => claimTestTail (c :: rest) || (c != '\n' && claimDotStarTest rest)

/-- Matcher for a case-SENSITIVE access modifier followed eventually by the
claimed (case-insensitive) test token. -/
def claimModDotStarTest (cs : List Char) : Bool :=
  (litAt "public".toList cs && claimDotStarTest (cs.drop 6)) ||
  (litAt "private".toList cs && claimDotStarTest (cs.drop 7)) ||
  (litAt "protected".toList cs && claimDotStarTest (cs.drop 9))

/-- Acceptance of a line exactly as claim C1 words it: an access-modifier
token (matched case-sensitively, since the claim restricts case-insensitivity
to the `test` token) followed eventually by an identifier starting with
`test` (case-insensitive) and an opening parenthesis, or the case-sensitive
marker `@Test`. -/
def claimStatedAccept (line : String) : Bool :=
  searchB claimModDotStarTest line.toList || containsSub "@Test".toList line.toList

example : extract_line_matches "12: public void testAdd() \x7b" = true := by decide
example : extract_line_matches "45: // test helper, not a method" = false := by decide
example : extract_line_matches "  @Test" = true := by decide

/-- C1 (counterexample): the code applies `re.IGNORECASE` to the whole
pattern, so `PUBLIC void testAdd() {` (upper-case modifier) is accepted even
though the claim's rule rejects it, and the code's `test\w+` requires at
least one character after `test`, so `public void test() {` is rejected even
though its identifier starts with `test` and the claim's rule accepts it. -/
theorem java_acceptance_counterexample :
    (extract_line_matches "PUBLIC void testAdd() \x7b" = true ∧
      claimStatedAccept "PUBLIC void testAdd() \x7b" = false) ∧
    (extract_line_matches "public void test() \x7b" = false ∧
      claimStatedAccept "public void test() \x7b" = true) :=
  ⟨⟨by decide, by decide⟩, by decide, by decide⟩

/-- C1 (amended): a line is accepted as a test candidate iff, after lowering
the whole line (the code's `re.IGNORECASE` covers the modifier tokens as well
as the `test` token), it contains an access modifier followed eventually (no
newline in between) by `test`, at least one further identifier character,
optional whitespace and an opening parenthesis — or the line contains the
case-sensitive annotation marker `@Test`. In particular
`12: public void testAdd() {` is accepted and
`45: // test helper, not a method` is rejected. -/
theorem java_acceptance :
    (∀ line : String, extract_line_matches line = true ↔
      (JavaRegexDecomp line.toList ∨ AtTestDecomp line.toList)) ∧
    extract_line_matches "12: public void testAdd() \x7b" = true ∧
    extract_line_matches "45: // test helper, not a method" = false := by
  refine ⟨fun line => ?_, by decide, by decide⟩
  simp only [extract_line_matches, Bool.or_eq_true]
  exact or_congr javaRegexSearch_iff atTest_iff

/-- Maximal run of word characters at the head of the input, together with
the remainder (the greedy extent of `\w+`). -/
def wordRunSplit : List Char → List Char × List Char
  | [] => ([], [])
  | c :: cs =>
    if isWordChar c then
      let p := wordRunSplit cs
      (c :: p.1, p.2)
    else ([], c :: cs)

/-- Generic leftmost search for a capture-returning matcher: `re.search`
tries every start position in order and keeps the first success. -/
def searchO {α : Type} (f : List Char → Option α) : List Char → Option α
  | [] => f []
  | c :: cs =>
    match f (c :: cs) with
    | some r => some r
    | none => searchO f cs

/-- Matcher for the lazy gap and capture `.*?(\w+)\s*\(`: advance one
character at a time (failing on a newline, which `.` cannot consume); at a
word character, succeed with the maximal word run as the capture when that
run is followed by `\s*\(`, and otherwise keep advancing. -/
def scanWordParen : List Char → Option (List Char)
  | [] => none
  | c :: cs =>
    if isWordChar c then
      if matchWSParen (wordRunSplit (c :: cs)).2 then some (wordRunSplit (c :: cs)).1
      else scanWordParen cs
    else if c == '\n' then none
    else scanWordParen cs

/-- One position of `re.search(r'(public|private|protected).*?(\w+)\s*\(', content)`
— this name-derivation regex is case-SENSITIVE, unlike the acceptance regex. -/
def tryModAt (cs : List Char) : Option (List Char) :=
  if litAt "public".toList cs then scanWordParen (cs.drop 6)
  else if litAt "private".toList cs then scanWordParen (cs.drop 7)
  else if litAt "protected".toList cs then scanWordParen (cs.drop 9)
  else none

/-- The `@Test` branch of name derivation: the regex search, returning
`group(2)` of the first match. -/
def searchModIdent (cs : List Char) : Option (List Char) := searchO tryModAt cs

/-- One position of `re.search(r'(test\w+)', content, re.IGNORECASE)`: four
characters lowering to `test`, then at least one further word character; the
capture keeps the original characters. -/
def tryTestAt : List Char → Option (List Char)
  | a :: b :: c :: d :: rest =>
    if a.toLower == 't' && b.toLower == 'e' && c.toLower == 's' && d.toLower == 't'
        && !(wordRunSplit rest).1.isEmpty then
      some (a :: b :: c :: d :: (wordRunSplit rest).1)
    else none
  | _ => none

/-- The non-annotation branch of name derivation: leftmost `test…` identifier. -/
def searchTestIdent (cs : List Char) : Option (List Char) := searchO tryTestAt cs

/-- Method-name derivation of `analyze_test_with_agent`
(`lesson_6.py` lines 71–82), applied to the text after the first colon. -/
def derive_method_name (method_content : List Char) : String :=
  if containsSub "@Test".toList method_content then
    match searchModIdent method_content with
    | some r => r.asString
    | none => "Unknown"
  else
    match searchTestIdent method_content with
    | some r => r.asString
    | none => "Unknown"

example : derive_method_name " public void testAdd() \x7b".toList = "testAdd" := by decide
example : derive_method_name " @Test".toList = "Unknown" := by decide
example : derive_method_name " @Test public void fooBar() \x7b".toList = "fooBar" := by decide
example : derive_method_name " @Test void testFoo() \x7b".toList = "Unknown" := by decide
example : derive_method_name " // test helper".toList = "Unknown" := by decide

theorem space_not_word {c : Char} (h : isSpaceChar c = true) : isWordChar c = false := by
  simp only [isSpaceChar, Bool.or_eq_true, beq_iff_eq] at h
  rcases h with ((((rfl | rfl) | rfl) | rfl) | rfl) | rfl <;> decide

theorem word_not_newline {c : Char} (h : isWordChar c = true) : c ≠ '\n' := by
  rintro rfl
  simp [isWordChar, Char.isAlphanum, Char.isAlpha, Char.isDigit, Char.isUpper, Char.isLower] at h

theorem wordRunSplit_append (cs : List Char) :
    (wordRunSplit cs).1 ++ (wordRunSplit cs).2 = cs := by
  induction cs with
  | nil => rfl
  | cons c cs' ih =>
    by_cases h : isWordChar c = true
    · simp [wordRunSplit, h, ih]
    · simp [wordRunSplit, h]

theorem wordRunSplit_word {cs : List Char} : ∀ c ∈ (wordRunSplit cs).1, isWordChar c = true := by
  induction cs with
  | nil => simp [wordRunSplit]
  | cons c cs' ih =>
    by_cases h : isWordChar c = true
    · simp only [wordRunSplit, h, if_true]
      intro d hd
      rcases List.mem_cons.mp hd with rfl | hd
      · exact h
      · exact ih d hd
    · simp [wordRunSplit, h]

theorem wordRunSplit_of_run {w rest : List Char} (hw : ∀ c ∈ w, isWordChar c = true)
    (hrest : ∀ d rest', rest = d :: rest' → isWordChar d = false) :
    wordRunSplit (w ++ rest) = (w, rest) := by
  induction w with
  | nil =>
    cases rest with
    | nil => rfl
    | cons d rest' => simp [wordRunSplit, hrest d rest' rfl]
  | cons c w' ih =>
    have hc : isWordChar c = true := hw c (List.mem_cons_self ..)
    have ih' := ih fun d hd => hw d (List.mem_cons_of_mem _ hd)
    simp only [List.cons_append, wordRunSplit, hc, if_true, List.append_eq, ih']

theorem scanWordParen_sound {cs r : List Char} (h : scanWordParen cs = some r) :
    ∃ gap ws post, cs = gap ++ r ++ ws ++ '(' :: post ∧ r ≠ [] ∧
      (∀ c ∈ r, isWordChar c = true) ∧ (∀ c ∈ ws, isSpaceChar c = true) ∧
      ∀ c ∈ gap, c ≠ '\n' := by
  induction cs with
  | nil => simp [scanWordParen] at h
  | cons c cs' ih =>
    by_cases hw : isWordChar c = true
    · by_cases hp : matchWSParen (wordRunSplit (c :: cs')).2 = true
      · simp only [scanWordParen, hw, hp, if_true, Option.some.injEq] at h
        subst h
        obtain ⟨ws, post, hsplit, hws⟩ := matchWSParen_sound hp
        refine ⟨[], ws, post, ?_, ?_, wordRunSplit_word, hws, by simp⟩
        · have happ := wordRunSplit_append (c :: cs')
          rw [hsplit] at happ
          rw [List.nil_append, List.append_assoc]
          exact happ.symm
        · simp [wordRunSplit, hw]
      · simp only [scanWordParen, hw, hp, if_true, if_false] at h
        obtain ⟨gap, ws, post, rfl, hr, hword, hws, hgap⟩ := ih h
        refine ⟨c :: gap, ws, post, rfl, hr, hword, hws, ?_⟩
        intro d hd
        rcases List.mem_cons.mp hd with rfl | hd
        · exact word_not_newline hw
        · exact hgap d hd
    · by_cases hn : c = '\n'
      · subst hn
        have h0 : scanWordParen ('\n' :: cs') = none := rfl
        rw [h0] at h
        exact Option.noConfusion h
      · simp only [scanWordParen, hw, if_false, beq_iff_eq, hn] at h
        obtain ⟨gap, ws, post, rfl, hr, hword, hws, hgap⟩ := ih h
        refine ⟨c :: gap, ws, post, rfl, hr, hword, hws, ?_⟩
        intro d hd
        rcases List.mem_cons.mp hd with rfl | hd
        · exact hn
        · exact hgap d hd

theorem scanWordParen_complete {gap w ws post : List Char} (hgap : ∀ c ∈ gap, c ≠ '\n')
    (hne : w ≠ []) (hw : ∀ c ∈ w, isWordChar c = true) (hws : ∀ c ∈ ws, isSpaceChar c = true) :
    (scanWordParen (gap ++ w ++ ws ++ '(' :: post)).isSome = true := by
  induction gap with
  | nil =>
    cases w with
    | nil => exact absurd rfl hne
    | cons c w' =>
      have hsplit : wordRunSplit (c :: (w' ++ (ws ++ '(' :: post))) = (c :: w', ws ++ '(' :: post) := by
        refine wordRunSplit_of_run hw ?_
        intro d rest' hd
        cases ws with
        | nil =>
          simp only [List.nil_append, List.cons.injEq] at hd
          rw [← hd.1]
          decide
        | cons e ws' =>
          simp only [List.cons_append, List.cons.injEq] at hd
          rw [← hd.1]
          exact space_not_word (hws e (List.mem_cons_self ..))
      have hc : isWordChar c = true := hw c (List.mem_cons_self ..)
      simp [scanWordParen, hc, hsplit, matchWSParen_complete hws]
  | cons c gap' ih =>
    have hcn : c ≠ '\n' := hgap c (List.mem_cons_self ..)
    have ih' := ih fun d hd => hgap d (List.mem_cons_of_mem _ hd)
    by_cases hcw : isWordChar c = true
    · simp only [List.cons_append, scanWordParen, hcw, if_true]
      by_cases hp : matchWSParen (wordRunSplit (c :: (gap' ++ (w ++ (ws ++ '(' :: post))))).2 = true
      · simp [hp]
      · simpa [hp] using ih'
    · simp only [List.cons_append, scanWordParen, hcw, if_false, beq_iff_eq, hcn]
      exact ih'

theorem searchO_sound {α : Type} {f : List Char → Option α} {cs : List Char} {r : α}
    (h : searchO f cs = some r) : ∃ pre rest, cs = pre ++ rest ∧ f rest = some r := by
  induction cs with
  | nil => exact ⟨[], [], rfl, h⟩
  | cons c cs' ih =>
    unfold searchO at h
    cases hf : f (c :: cs') with
    | some r' =>
      rw [hf] at h
      exact ⟨[], c :: cs', rfl, hf.trans h⟩
    | none =>
      rw [hf] at h
      obtain ⟨pre, rest, rfl, hfr⟩ := ih h
      exact ⟨c :: pre, rest, rfl, hfr⟩

theorem searchO_complete {α : Type} {f : List Char → Option α} {pre rest : List Char}
    (h : (f rest).isSome = true) : (searchO f (pre ++ rest)).isSome = true := by
  induction pre with
  | nil =>
    obtain ⟨r, hr⟩ := Option.isSome_iff_exists.mp h
    cases rest with
    | nil => simpa [searchO] using h
    | cons c cs' => simp [searchO, hr]
  | cons c pre' ih =>
    simp only [List.cons_append, searchO]
    cases hf : f (c :: (pre' ++ rest)) with
    | some r' => simp
    | none => exact ih

theorem tryModAt_sound {cs r : List Char} (h : tryModAt cs = some r) :
    ∃ m rest, cs = m ++ rest ∧ m ∈ javaModifiers ∧ scanWordParen rest = some r := by
  unfold tryModAt at h
  by_cases h1 : litAt "public".toList cs = true
  · simp only [h1, if_true] at h
    obtain ⟨rest, rfl⟩ := litAt_iff.mp h1
    exact ⟨_, rest, rfl, by simp [javaModifiers],
      by rwa [drop_length_append "public".toList rest 6 rfl] at h⟩
  · simp only [h1, if_false] at h
    by_cases h2 : litAt "private".toList cs = true
    · simp only [h2, if_true] at h
      obtain ⟨rest, rfl⟩ := litAt_iff.mp h2
      exact ⟨_, rest, rfl, by simp [javaModifiers],
        by rwa [drop_length_append "private".toList rest 7 rfl] at h⟩
    · simp only [h2, if_false] at h
      by_cases h3 : litAt "protected".toList cs = true
      · simp only [h3, if_true] at h
        obtain ⟨rest, rfl⟩ := litAt_iff.mp h3
        exact ⟨_, rest, rfl, by simp [javaModifiers],
          by rwa [drop_length_append "protected".toList rest 9 rfl] at h⟩
      · simp only [h3, if_false] at h
        exact Option.noConfusion h

theorem tryModAt_complete {m rest : List Char} (hm : m ∈ javaModifiers)
    (h : (scanWordParen rest).isSome = true) : (tryModAt (m ++ rest)).isSome = true := by
  have hcases : m = "public".toList ∨ m = "private".toList ∨ m = "protected".toList := by
    simpa [javaModifiers] using hm
  rcases hcases with rfl | rfl | rfl
  · simpa [tryModAt, litAt_self, drop_length_append "public".toList rest 6 rfl] using h
  · have f1 : litAt "public".toList ("private".toList ++ rest) = false := rfl
    simpa [tryModAt, f1, litAt_self, drop_length_append "private".toList rest 7 rfl] using h
  · have f1 : litAt "public".toList ("protected".toList ++ rest) = false := rfl
    have f2 : litAt "private".toList ("protected".toList ++ rest) = false := rfl
    simpa [tryModAt, f1, f2, litAt_self, drop_length_append "protected".toList rest 9 rfl] using h

theorem tryTestAt_sound {cs r : List Char} (h : tryTestAt cs = some r) :
    ∃ t4 run rest, cs = t4 ++ run ++ rest ∧ r = t4 ++ run ∧
      t4.map Char.toLower = "test".toList ∧ run ≠ [] ∧ ∀ c ∈ run, isWordChar c = true := by
  match cs, h with
  | a :: b :: c :: d :: rest0, h =>
    by_cases hg : (a.toLower == 't' && b.toLower == 'e' && c.toLower == 's' && d.toLower == 't'
        && !(wordRunSplit rest0).1.isEmpty) = true
    · rw [tryTestAt, if_pos hg] at h
      obtain ⟨⟨⟨⟨ha, hb⟩, hc⟩, hd⟩, hrun⟩ :
          ((((a.toLower == 't') = true ∧ (b.toLower == 'e') = true) ∧ (c.toLower == 's') = true) ∧
            (d.toLower == 't') = true) ∧ (!(wordRunSplit rest0).1.isEmpty) = true := by
        simpa [Bool.and_eq_true] using hg
      refine ⟨[a, b, c, d], (wordRunSplit rest0).1, (wordRunSplit rest0).2, ?_, ?_, ?_, ?_,
        wordRunSplit_word⟩
      · simp [List.append_assoc, wordRunSplit_append rest0]
      · injection h with h'
        exact h'.symm
      · rw [show "test".toList = ['t', 'e', 's', 't'] from rfl]
        simp only [List.map]
        rw [beq_iff_eq.mp ha, beq_iff_eq.mp hb, beq_iff_eq.mp hc, beq_iff_eq.mp hd]
      · cases hrs : (wordRunSplit rest0).1 with
        | nil => rw [hrs] at hrun; simp at hrun
        | cons x xs => simp
    · rw [tryTestAt, if_neg hg] at h
      exact Option.noConfusion h

theorem tryTestAt_complete {t4 rest' : List Char} {e : Char}
    (ht : t4.map Char.toLower = "test".toList) (he : isWordChar e = true) :
    (tryTestAt (t4 ++ e :: rest')).isSome = true := by
  obtain ⟨a, b, c, d, rfl⟩ : ∃ a b c d, t4 = [a, b, c, d] := by
    have hlen : t4.length = 4 := by
      have hl := congrArg List.length ht
      simpa using hl
    match t4, hlen with
    | [a, b, c, d], _ => exact ⟨a, b, c, d, rfl⟩
  have ht' : [a.toLower, b.toLower, c.toLower, d.toLower] = ['t', 'e', 's', 't'] := ht
  simp only [List.cons.injEq] at ht'
  obtain ⟨ha, hb, hc, hd, -⟩ := ht'
  simp [tryTestAt, ha, hb, hc, hd, wordRunSplit, he]

/-- Name property of the annotation branch, as claim C7 must be amended:
`name` is a nonempty identifier immediately preceding (up to whitespace) an
opening parenthesis AND preceded on the line by an access-modifier token,
with no newline between modifier and identifier. -/
def ModIdentParen (cs name : List Char) : Prop :=
  ∃ pre m gap ws post,
    cs = pre ++ m ++ gap ++ name ++ ws ++ '(' :: post ∧ m ∈ javaModifiers ∧
    name ≠ [] ∧ (∀ c ∈ name, isWordChar c = true) ∧
    (∀ c ∈ ws, isSpaceChar c = true) ∧ ∀ c ∈ gap, c ≠ '\n'

/-- Name property of the prefix branch of claim C7: `name` occurs in the
content and is `test` (case-insensitively) followed by at least one further
identifier character. -/
def TestPrefixIdent (cs name : List Char) : Prop :=
  ∃ pre post t4 run,
    cs = pre ++ name ++ post ∧ name = t4 ++ run ∧
    t4.map Char.toLower = "test".toList ∧ run ≠ [] ∧ ∀ c ∈ run, isWordChar c = true

theorem searchModIdent_sound {cs r : List Char} (h : searchModIdent cs = some r) :
    ModIdentParen cs r := by
  obtain ⟨pre, rest, rfl, hf⟩ := searchO_sound h
  obtain ⟨m, rest2, rfl, hm, hscan⟩ := tryModAt_sound hf
  obtain ⟨gap, ws, post, rfl, hne, hword, hws, hgap⟩ := scanWordParen_sound hscan
  exact ⟨pre, m, gap, ws, post, by simp [List.append_assoc], hm, hne, hword, hws, hgap⟩

theorem searchModIdent_complete {cs name : List Char} (h : ModIdentParen cs name) :
    (searchModIdent cs).isSome = true := by
  obtain ⟨pre, m, gap, ws, post, rfl, hm, hne, hword, hws, hgap⟩ := h
  have hscan : (scanWordParen (gap ++ name ++ ws ++ '(' :: post)).isSome = true :=
    scanWordParen_complete hgap hne hword hws
  have htry : (tryModAt (m ++ (gap ++ name ++ ws ++ '(' :: post))).isSome = true :=
    tryModAt_complete hm hscan
  have hsearch := @searchO_complete _ tryModAt pre _ htry
  simpa [List.append_assoc] using hsearch

theorem searchTestIdent_sound {cs r : List Char} (h : searchTestIdent cs = some r) :
    TestPrefixIdent cs r := by
  obtain ⟨pre, rest, rfl, hf⟩ := searchO_sound h
  obtain ⟨t4, run, rest2, rfl, rfl, ht, hne, hword⟩ := tryTestAt_sound hf
  exact ⟨pre, rest2, t4, run, by simp [List.append_assoc], rfl, ht, hne, hword⟩

theorem searchTestIdent_complete {cs name : List Char} (h : TestPrefixIdent cs name) :
    (searchTestIdent cs).isSome = true := by
  obtain ⟨pre, post, t4, run, rfl, rfl, ht, hne, hword⟩ := h
  cases run with
  | nil => exact absurd rfl hne
  | cons e run' =>
    have htry : (tryTestAt (t4 ++ e :: (run' ++ post))).isSome = true :=
      tryTestAt_complete ht (hword e (List.mem_cons_self ..))
    have hsearch := @searchO_complete _ tryTestAt pre _ htry
    simpa [List.append_assoc] using hsearch

/-- C7 (counterexample): on the annotation-marked content
` @Test void testFoo() {` the identifier `testFoo` immediately precedes the
parameter-list opening parenthesis, yet the code derives the sentinel
`Unknown`, because its name regex additionally demands an access-modifier
token before the identifier and this line has none. -/
theorem name_derivation_counterexample :
    containsSub "@Test".toList " @Test void testFoo() \x7b".toList = true ∧
    derive_method_name " @Test void testFoo() \x7b".toList = "Unknown" ∧
    (∃ pre ws post,
      " @Test void testFoo() \x7b".toList = pre ++ "testFoo".toList ++ ws ++ '(' :: post ∧
      (∀ c ∈ "testFoo".toList, isWordChar c = true) ∧ ∀ c ∈ ws, isSpaceChar c = true) ∧
    ("Unknown" : String) ≠ "testFoo" :=
  ⟨by decide, by decide,
    ⟨" @Test void ".toList, [], ") \x7b".toList, by decide, by decide, by decide⟩, by decide⟩

/-- C7 (amended): for an annotation-marked content the derived name is an
identifier immediately preceding (up to whitespace) an opening parenthesis
that is ALSO preceded by an access-modifier token, and when no such
modifier-identifier-parenthesis pattern exists the name is the defined
sentinel `Unknown`; for a content without the annotation marker the derived
name is a `test…` identifier occurring in the content (`test`,
case-insensitively, plus at least one identifier character), with `Unknown`
again the defined fallback when no such identifier occurs. -/
theorem name_derivation (content : List Char) :
    (containsSub "@Test".toList content = true →
      (∃ r, ModIdentParen content r ∧ derive_method_name content = r.asString) ∨
        (derive_method_name content = "Unknown" ∧ ∀ r, ¬ ModIdentParen content r)) ∧
    (containsSub "@Test".toList content = false →
      (∃ r, TestPrefixIdent content r ∧ derive_method_name content = r.asString) ∨
        (derive_method_name content = "Unknown" ∧ ∀ r, ¬ TestPrefixIdent content r)) := by
  constructor
  · intro hat
    have hat' : containsSub ['@', 'T', 'e', 's', 't'] content = true := hat
    cases hs : searchModIdent content with
    | some r =>
      exact Or.inl ⟨r, searchModIdent_sound hs, by simp [derive_method_name, hat', hs]⟩
    | none =>
      refine Or.inr ⟨by simp [derive_method_name, hat', hs], fun r hr => ?_⟩
      have hsome := searchModIdent_complete hr
      rw [hs] at hsome
      exact Bool.noConfusion hsome
  · intro hat
    have hat' : containsSub ['@', 'T', 'e', 's', 't'] content = false := hat
    cases hs : searchTestIdent content with
    | some r =>
      exact Or.inl ⟨r, searchTestIdent_sound hs, by simp [derive_method_name, hat', hs]⟩
    | none =>
      refine Or.inr ⟨by simp [derive_method_name, hat', hs], fun r hr => ?_⟩
      have hsome := searchTestIdent_complete hr
      rw [hs] at hsome
      exact Bool.noConfusion hsome

/-- Closed instance of `name_derivation` at the prefix-style content
` public void testAdd() {`, which has no annotation marker. -/
theorem name_derivation_witness :
    (∃ r, TestPrefixIdent " public void testAdd() \x7b".toList r ∧
        derive_method_name " public void testAdd() \x7b".toList = r.asString) ∨
      (derive_method_name " public void testAdd() \x7b".toList = "Unknown" ∧
        ∀ r, ¬ TestPrefixIdent " public void testAdd() \x7b".toList r) :=
  (name_derivation " public void testAdd() \x7b".toList).2 (by decide)

/-- Pydantic model `TestMethod` (`lesson_6.py` lines 12–17). -/
structure TestMethod where
  name : String
  line_number : Int
  purpose : String
  file_path : String
deriving DecidableEq

/-- Pydantic model `FileAnalysis` (`lesson_6.py` lines 19–23). -/
structure FileAnalysis where
  file_path : String
  test_methods : List TestMethod
  total_tests : Nat
deriving DecidableEq

/-- Pydantic model `TestExtractionResult` (`lesson_6.py` lines 25–31). -/
structure TestExtractionResult where
  repository_path : String
  total_files_analyzed : Nat
  total_tests_found : Nat
  file_analyses : List FileAnalysis
  summary : String
deriving DecidableEq

/-- A source file as the pipeline observes it through the filesystem
collaborator: its path, whether `os.path.exists` holds, whether opening it
for reading succeeds, and its lines (stored without the terminating newline;
the model treats every stored line as newline-terminated on disk). -/
structure SFile where
  path : String
  pathExists : Bool
  readable : Bool
  lines : List String
deriving DecidableEq

/-- The summarizer collaborator `agent.structured_output(TestPurpose, prompt)`:
from the prompt it either returns the purpose string or raises (modelled as
`Except.error` carrying `str(e)`). -/
def Summarizer : Type := String → Except String String

/-- Python list slicing `xs[start:stop]` (step 1): negative indices wrap
around from the end, then both bounds are clamped to `[0, len]`. -/
def pySlice {α : Type} (xs : List α) (start stop : Int) : List α :=
  let n : Int := xs.length
  let s := (if start < 0 then max (n + start) 0 else min start n).toNat
  let e := (if stop < 0 then max (n + stop) 0 else min stop n).toNat
  (xs.take e).drop s

/-- `''.join(...)` over a slice of `f.readlines()`: every stored line carries
its newline, so joining preserves the original line breaks. -/
def joinLines (ls : List String) : String :=
  String.join (ls.map (fun l => l ++ "\n"))

/-- The context-window read of `analyze_test_with_agent` (`lesson_1.py`
47–54 / `lesson_6.py` 84–91): `lines[start_line : start_line+20]` with
`start_line = line_num - 1`, joined; only an unreadable file (`IOError` from
`open`) falls back to the raw matched text. List slicing never raises
`IndexError`, so the `except (IOError, IndexError)` branch cannot fire for a
readable file, whatever `line_num` is. -/
def readContextWindow (f : SFile) (line_num : Int) (method_content : String) : String :=
  if f.readable then joinLines (pySlice f.lines (line_num - 1) (line_num - 1 + 20))
  else method_content

/-- Decimal accumulation for `pyParseInt`. -/
def digitsToNat : List Char → Nat → Nat
  | [], acc => acc
  | c :: cs, acc => digitsToNat cs (acc * 10 + (c.toNat - '0'.toNat))

/-- Python `int(s)` on the strings this pipeline produces: optional
surrounding whitespace, an optional sign, then at least one ASCII digit
(`grep -n` line numbers; digit-group underscores cannot occur here and are
not modelled). `none` where `int` raises `ValueError`. -/
def pyParseInt (cs : List Char) : Option Int :=
  let t := ((cs.dropWhile isSpaceChar).reverse.dropWhile isSpaceChar).reverse
  let sd : Int × List Char :=
    match t with
    | '+' :: rest => (1, rest)
    | '-' :: rest => (-1, rest)
    | _ => (1, t)
  if sd.2 ≠ [] ∧ sd.2.all Char.isDigit then some (sd.1 * (digitsToNat sd.2 0 : Int))
  else none

/-- Python `s.split(':', 1)` guarded by `':' in s`: `none` when the string
has no colon, otherwise the text before and after the first colon. -/
def splitFirstColon : List Char → Option (List Char × List Char)
  | [] => none
  | c :: cs =>
    if c == ':' then some ([], cs)
    else (splitFirstColon cs).map (fun p => (c :: p.1, p.2))

/-- The f-string prompt of `analyze_test_with_agent` (`lesson_6.py` 94–102). -/
def mkPrompt (method_name method_body : String) : String :=
  "\n    Analyze this Java test method and return structured information about it:\n    \n    Method name: " ++ method_name ++ "\n    Code:\n    " ++ method_body ++
    "\n    \n    Provide a concise description of what this test method tests.\n    "

/-- `analyze_test_with_agent` (`lesson_6.py` lines 54–118). -/
def analyze_test_with_agent (method_line : String) (f : SFile) (agent : Summarizer) :
    TestMethod :=
  match splitFirstColon method_line.toList with
  | none => ⟨"Unknown", 0, "Unknown test", f.path⟩
  | some (ln, mc) =>
    let line_num_int : Int := (pyParseInt ln).getD 0
    let method_name := derive_method_name mc
    let method_body := readContextWindow f line_num_int mc.asString
    let purpose :=
      match agent (mkPrompt method_name method_body) with
      | Except.ok p => p
      | Except.error e => "Analysis failed: " ++ e
    ⟨method_name, line_num_int, purpose, f.path⟩

/-- `find_test_lines` (`lesson_6.py` lines 39–43): `grep -n -i test file` —
the 1-indexed lines containing `test` case-insensitively, each formatted
`<number>:<text>`; an unreadable file produces no grep output, and Python's
falsy empty stdout is modelled by the empty list. -/
def find_test_lines (f : SFile) : List String :=
  if f.readable then
    (f.lines.enum.filter
        (fun p => containsSub "test".toList (p.2.toList.map Char.toLower))).map
      (fun p => toString (p.1 + 1) ++ ":" ++ p.2)
  else []

/-- One iteration of the per-file loop in `main` (`lesson_6.py` 139–169):
skip a non-existing file, skip a file with no grep hits or no accepted
candidates; otherwise analyze the first three candidates and assemble the
`FileAnalysis` with `total_tests = len(analyzed_methods)`. -/
def processFile (agent : Summarizer) (f : SFile) : Option FileAnalysis :=
  if f.pathExists then
    let test_lines := find_test_lines f
    if test_lines.isEmpty then none
    else
      let test_methods := extract_test_methods test_lines
      if test_methods.isEmpty then none
      else
        let analyzed := (test_methods.take 3).map
          (fun method_line => analyze_test_with_agent method_line f agent)
        some ⟨f.path, analyzed, analyzed.length⟩
  else none

/-- The accumulating loop of `main` (`lesson_6.py` 136–169): `file_analyses`
grows by appending and `total_tests` by `len(analyzed_methods)` (which is the
`total_tests` field just stored). -/
def mainLoop (agent : Summarizer) : List SFile → List FileAnalysis → Nat →
    List FileAnalysis × Nat
  | [], acc, total => (acc, total)
  | f :: fs, acc, total =>
    match processFile agent f with
    | some fa => mainLoop agent fs (acc ++ [fa]) (total + fa.total_tests)
    | none => mainLoop agent fs acc total

/-- `main` (`lesson_6.py` lines 120–178), from the loop results to the final
`TestExtractionResult`. -/
def main (repo_path : String) (files : List SFile) (agent : Summarizer) :
    TestExtractionResult :=
  let r := mainLoop agent files [] 0
  ⟨repo_path,
   (files.filter (fun f => f.pathExists)).length,
   r.2,
   r.1,
   "Analyzed " ++ toString r.1.length ++ " files with test methods, found " ++
     toString r.2 ++ " total test methods"⟩

theorem mainLoop_spec (agent : Summarizer) (files : List SFile) (acc : List FileAnalysis)
    (total : Nat) :
    mainLoop agent files acc total =
      (acc ++ files.filterMap (processFile agent),
       total + ((files.filterMap (processFile agent)).map (fun fa => fa.total_tests)).sum) := by
  induction files generalizing acc total with
  | nil => simp [mainLoop]
  | cons f fs ih =>
    cases hp : processFile agent f with
    | some fa =>
      simp only [mainLoop, hp, List.filterMap_cons, ih]
      simp [List.append_assoc, Nat.add_assoc]
    | none => simp only [mainLoop, hp, List.filterMap_cons, ih]

theorem processFile_some {agent : Summarizer} {f : SFile} {fa : FileAnalysis}
    (h : processFile agent f = some fa) :
    f.pathExists = true ∧ fa.file_path = f.path ∧
    fa.test_methods = ((extract_test_methods (find_test_lines f)).take 3).map
      (fun method_line => analyze_test_with_agent method_line f agent) ∧
    fa.total_tests = fa.test_methods.length := by
  unfold processFile at h
  by_cases he : f.pathExists = true
  · rw [if_pos he] at h
    by_cases h1 : (find_test_lines f).isEmpty = true
    · rw [if_pos h1] at h
      exact Option.noConfusion h
    · rw [if_neg h1] at h
      by_cases h2 : (extract_test_methods (find_test_lines f)).isEmpty = true
      · rw [if_pos h2] at h
        exact Option.noConfusion h
      · rw [if_neg h2] at h
        injection h with h'
        subst h'
        exact ⟨he, rfl, rfl, rfl⟩
  · rw [if_neg he] at h
    exact Option.noConfusion h

theorem processFile_none_of_not_exists {agent : Summarizer} {f : SFile}
    (he : f.pathExists = false) : processFile agent f = none := by
  unfold processFile
  rw [if_neg]
  rw [he]
  exact Bool.false_ne_true

theorem filterMap_length_le_filter (agent : Summarizer) (files : List SFile) :
    (files.filterMap (processFile agent)).length ≤
      (files.filter (fun f => f.pathExists)).length := by
  induction files with
  | nil => simp
  | cons f fs ih =>
    by_cases he : f.pathExists = true
    · cases hp : processFile agent f with
      | some fa =>
        simp only [List.filterMap_cons, hp, List.filter_cons, he, if_true, List.length_cons]
        omega
      | none =>
        simp only [List.filterMap_cons, hp, List.filter_cons, he, if_true, List.length_cons]
        omega
    · have he' : f.pathExists = false := by
        cases hb : f.pathExists
        · rfl
        · exact absurd hb he
      simp only [List.filterMap_cons, processFile_none_of_not_exists he', List.filter_cons, he',
        Bool.false_eq_true, if_false]
      exact ih

/-- C3: for every completed scan, `total_tests_found` equals the sum of
`total_tests` over `file_analyses`, and `total_files_analyzed` (the number of
existing files) is at least the number of per-file analyses. -/
theorem result_invariants (repo_path : String) (files : List SFile) (agent : Summarizer) :
    (main repo_path files agent).total_tests_found =
      ((main repo_path files agent).file_analyses.map (fun fa => fa.total_tests)).sum ∧
    (main repo_path files agent).file_analyses.length ≤
      (main repo_path files agent).total_files_analyzed := by
  unfold main
  rw [mainLoop_spec]
  exact ⟨by simp, by simpa using filterMap_length_le_filter agent files⟩

/-- C8: every `FileAnalysis` the pipeline produces satisfies
`total_tests = length test_methods`. -/
theorem per_file_total_invariant (repo_path : String) (files : List SFile) (agent : Summarizer)
    (fa : FileAnalysis) (h : fa ∈ (main repo_path files agent).file_analyses) :
    fa.total_tests = fa.test_methods.length := by
  unfold main at h
  rw [mainLoop_spec] at h
  simp only [List.nil_append] at h
  obtain ⟨f, _, hp⟩ := List.mem_filterMap.mp h
  exact (processFile_some hp).2.2.2

/-- C2: every `FileAnalysis` holds at most three `TestMethod` entries — the
analyses of exactly the first three accepted candidates of its file, in grep
(ascending line) order. -/
theorem candidate_cap (repo_path : String) (files : List SFile) (agent : Summarizer)
    (fa : FileAnalysis) (h : fa ∈ (main repo_path files agent).file_analyses) :
    fa.test_methods.length ≤ 3 ∧
    ∃ f, f ∈ files ∧ processFile agent f = some fa ∧
      fa.test_methods = ((extract_test_methods (find_test_lines f)).take 3).map
        (fun method_line => analyze_test_with_agent method_line f agent) := by
  unfold main at h
  rw [mainLoop_spec] at h
  simp only [List.nil_append] at h
  obtain ⟨f, hf, hp⟩ := List.mem_filterMap.mp h
  obtain ⟨-, -, hms, -⟩ := processFile_some hp
  refine ⟨?_, f, hf, hp, hms⟩
  calc fa.test_methods.length
      = min 3 (extract_test_methods (find_test_lines f)).length := by
        rw [hms, List.length_map, List.length_take]
    _ ≤ 3 := Nat.min_le_left ..

theorem processFile_none_extract_nil {agent : Summarizer} {f : SFile}
    (hn : processFile agent f = none) (he : f.pathExists = true) :
    extract_test_methods (find_test_lines f) = [] := by
  unfold processFile at hn
  rw [if_pos he] at hn
  by_cases h1 : (find_test_lines f).isEmpty = true
  · rw [List.isEmpty_iff.mp h1]
    rfl
  · rw [if_neg h1] at hn
    by_cases h2 : (extract_test_methods (find_test_lines f)).isEmpty = true
    · exact List.isEmpty_iff.mp h2
    · rw [if_neg h2] at hn
      exact Option.noConfusion hn

theorem total_eq_sum_capped (agent : Summarizer) (files : List SFile) :
    ((files.filterMap (processFile agent)).map (fun fa => fa.total_tests)).sum =
      (files.map (fun f => if f.pathExists then
        min 3 (extract_test_methods (find_test_lines f)).length else 0)).sum := by
  induction files with
  | nil => rfl
  | cons f fs ih =>
    cases hp : processFile agent f with
    | some fa =>
      obtain ⟨he, -, hms, htt⟩ := processFile_some hp
      simp only [List.filterMap_cons, hp, List.map_cons, List.sum_cons, ih, he, if_true]
      congr 1
      rw [htt, hms, List.length_map, List.length_take]
    | none =>
      simp only [List.filterMap_cons, hp, List.map_cons, List.sum_cons, ih]
      by_cases he : f.pathExists = true
      · rw [processFile_none_extract_nil hp he]
        simp [he]
      · simp [he]

/-- C9: the counting policy the code implements — candidates beyond the
per-file cap of 3 contribute neither to `total_tests_found` (which sums
`min 3 (number of qualifying candidates)` over existing files) nor to any
`test_methods` sequence. -/
theorem capped_counting (repo_path : String) (files : List SFile) (agent : Summarizer) :
    (main repo_path files agent).total_tests_found =
      (files.map (fun f => if f.pathExists then
        min 3 (extract_test_methods (find_test_lines f)).length else 0)).sum ∧
    ∀ fa ∈ (main repo_path files agent).file_analyses, ∀ f, processFile agent f = some fa →
      fa.test_methods.length = min 3 (extract_test_methods (find_test_lines f)).length := by
  constructor
  · unfold main
    rw [mainLoop_spec]
    simpa using total_eq_sum_capped agent files
  · intro fa _ f hp
    obtain ⟨-, -, hms, -⟩ := processFile_some hp
    rw [hms, List.length_map, List.length_take]

/-- C6: a summarizer failure for one candidate is absorbed — the candidate
still appears with purpose `"Analysis failed: <reason>"` and the whole
per-file list of analyses is produced regardless of the agent's behavior. -/
theorem summarizer_failure_isolation (f : SFile) (agent : Summarizer) (fa : FileAnalysis)
    (hfa : processFile agent f = some fa) :
    fa.test_methods = ((extract_test_methods (find_test_lines f)).take 3).map
      (fun method_line => analyze_test_with_agent method_line f agent) ∧
    ∀ ml ∈ (extract_test_methods (find_test_lines f)).take 3, ∀ ln mc r,
      splitFirstColon ml.toList = some (ln, mc) →
      agent (mkPrompt (derive_method_name mc)
        (readContextWindow f ((pyParseInt ln).getD 0) mc.asString)) = Except.error r →
      analyze_test_with_agent ml f agent ∈ fa.test_methods ∧
      (analyze_test_with_agent ml f agent).purpose = "Analysis failed: " ++ r := by
  obtain ⟨-, -, hms, -⟩ := processFile_some hfa
  refine ⟨hms, fun ml hml ln mc r hsplit hagent => ⟨?_, ?_⟩⟩
  · rw [hms]
    exact List.mem_map_of_mem _ hml
  · simp only [analyze_test_with_agent, hsplit, hagent]

/-- One-candidate demonstration file used by concrete witnesses. -/
def wFile : SFile := ⟨"W.java", true, true, ["public void testW() \x7b"]⟩

/-- Summarizer stub that always succeeds. -/
def okAgent : Summarizer := fun _ => Except.ok "ok"

/-- Summarizer stub that always raises. -/
def errAgent : Summarizer := fun _ => Except.error "boom"

/-- Demonstration file with four qualifying candidates, exceeding the cap. -/
def demoFile : SFile := ⟨"A.java", true, true,
  ["public void testA() \x7b", "\x7d", "public void testB() \x7b",
   "public void testC() \x7b", "public void testD() \x7b"]⟩

/-- The `FileAnalysis` the pipeline produces for `demoFile` with `okAgent`. -/
def demoFa : FileAnalysis :=
  ⟨"A.java",
   [⟨"testA", 1, "ok", "A.java"⟩, ⟨"testB", 3, "ok", "A.java"⟩,
    ⟨"testC", 4, "ok", "A.java"⟩], 3⟩

/-- The `FileAnalysis` the pipeline produces for `wFile` with `errAgent`. -/
def errFa : FileAnalysis :=
  ⟨"W.java", [⟨"testW", 1, "Analysis failed: boom", "W.java"⟩], 1⟩

/-- Closed instance of `per_file_total_invariant` on a concrete run. -/
theorem per_file_total_invariant_witness :
    (⟨"W.java", [⟨"testW", 1, "ok", "W.java"⟩], 1⟩ : FileAnalysis).total_tests =
      (⟨"W.java", [⟨"testW", 1, "ok", "W.java"⟩], 1⟩ : FileAnalysis).test_methods.length :=
  per_file_total_invariant "repo" [wFile] okAgent _ (by decide)

/-- Closed instance of `candidate_cap` on a file with four candidates. -/
theorem candidate_cap_witness :
    demoFa.test_methods.length ≤ 3 ∧
    ∃ f, f ∈ [demoFile] ∧ processFile okAgent f = some demoFa ∧
      demoFa.test_methods = ((extract_test_methods (find_test_lines f)).take 3).map
        (fun method_line => analyze_test_with_agent method_line f okAgent) :=
  candidate_cap "repo" [demoFile] okAgent demoFa (by decide)

/-- Closed instance of `capped_counting` on a file with four candidates. -/
theorem capped_counting_witness :
    demoFa.test_methods.length =
      min 3 (extract_test_methods (find_test_lines demoFile)).length :=
  (capped_counting "repo" [demoFile] okAgent).2 demoFa (by decide) demoFile (by decide)

/-- Closed instance of `summarizer_failure_isolation` with an always-failing
summarizer. -/
theorem summarizer_failure_isolation_witness :
    analyze_test_with_agent "1:public void testW() \x7b" wFile errAgent ∈ errFa.test_methods ∧
    (analyze_test_with_agent "1:public void testW() \x7b" wFile errAgent).purpose =
      "Analysis failed: " ++ "boom" :=
  (summarizer_failure_isolation wFile errAgent errFa (by decide)).2
    "1:public void testW() \x7b" (by decide) "1".toList "public void testW() \x7b".toList "boom"
    (by decide) rfl

theorem pySlice_window {α : Type} (xs : List α) (s : Int) (hs : 0 ≤ s)
    (hle : s ≤ (xs.length : Int)) :
    pySlice xs s (s + 20) = (xs.drop s.toNat).take 20 := by
  unfold pySlice
  have h1 : ¬ s < 0 := by omega
  have h2 : ¬ s + 20 < 0 := by omega
  simp only [h1, h2, if_false]
  rw [min_eq_left hle, List.drop_take]
  by_cases hcase : s + 20 ≤ (xs.length : Int)
  · have he : (min (s + 20) (xs.length : Int)).toNat = s.toNat + 20 := by
      rw [min_eq_left hcase]
      omega
    rw [he]
    congr 1
    omega
  · have he : (min (s + 20) (xs.length : Int)).toNat = xs.length := by
      rw [min_eq_right (le_of_not_le hcase)]
      omega
    rw [he]
    have hl : (xs.drop s.toNat).length = xs.length - s.toNat := List.length_drop ..
    rw [List.take_of_length_le (le_of_eq hl), List.take_of_length_le (by omega)]

/-- C5: for a readable file and an in-range 1-indexed start line, the context
window is the join, in original order with the line breaks preserved, of the
`window_size = 20` lines starting there; past end of file only the available
lines are returned (no padding, no error), so a window starting at the last
line is exactly that one line. -/
theorem context_window (f : SFile) (n : Int) (mc : String)
    (hr : f.readable = true) (h1 : 1 ≤ n) (h2 : n ≤ (f.lines.length : Int)) :
    readContextWindow f n mc = joinLines ((f.lines.drop (n - 1).toNat).take 20) ∧
    (n = (f.lines.length : Int) → ∃ l, f.lines.getLast? = some l ∧
      readContextWindow f n mc = l ++ "\n") := by
  have hwin : readContextWindow f n mc = joinLines ((f.lines.drop (n - 1).toNat).take 20) := by
    unfold readContextWindow
    rw [if_pos hr]
    congr 1
    exact pySlice_window f.lines (n - 1) (by omega) (by omega)
  refine ⟨hwin, fun hlast => ?_⟩
  have hne : f.lines ≠ [] := by
    intro h0
    rw [h0] at hlast
    simp at hlast
    omega
  have hlt : f.lines.length - 1 < f.lines.length := by
    cases hl : f.lines with
    | nil => exact absurd hl hne
    | cons a l' => simp
  have hdrop : f.lines.drop (f.lines.length - 1) = [f.lines.getLast hne] := by
    rw [List.drop_eq_getElem_cons hlt, List.getLast_eq_getElem]
    have hstep : f.lines.length - 1 + 1 = f.lines.length := by omega
    rw [hstep, List.drop_length]
  refine ⟨f.lines.getLast hne, List.getLast?_eq_getLast .. , ?_⟩
  rw [hwin]
  have hidx : (n - 1).toNat = f.lines.length - 1 := by omega
  rw [hidx, hdrop]
  rfl

/-- Demonstration file for the context-window witness: three lines, window
requested at the last line. -/
def vFile : SFile := ⟨"V.java", true, true, ["a", "b", "c"]⟩

/-- Closed instance of `context_window` at the last line of a concrete file. -/
theorem context_window_witness :
    readContextWindow vFile 3 "raw" = joinLines ((vFile.lines.drop ((3 : Int) - 1).toNat).take 20) ∧
    ((3 : Int) = (vFile.lines.length : Int) → ∃ l, vFile.lines.getLast? = some l ∧
      readContextWindow vFile 3 "raw" = l ++ "\n") :=
  context_window vFile 3 "raw" (by decide) (by decide) (by decide)

/-- C4: the graceful-degradation contract only half holds. An unreadable file
does fall back to the raw matched text, but an out-of-range start line on a
readable file does not: slicing past the end yields the empty string and a
start line below 1 wraps around Python-style, because list slicing never
raises the `IndexError` the code tries to catch. -/
theorem context_window_fallback_bug :
    readContextWindow ⟨"U.java", true, false, []⟩ 1 "raw text" = "raw text" ∧
    readContextWindow ⟨"T.java", true, true, ["class T \x7b"]⟩ 5 " public void testZed() \x7b" = "" ∧
    "" ≠ " public void testZed() \x7b" ∧
    readContextWindow ⟨"T2.java", true, true, ["aa", "bb"]⟩ 0 "raw" = "bb\n" ∧
    "bb\n" ≠ "raw" :=
  ⟨by decide, by decide, by decide, by decide, by decide⟩

/-- The security allow-list of `grep_pattern` (`lesson_3.py` lines 66–69);
each entry is the literal character sequence of the Python string, so
`"it\\("` is the four characters `i t \ (`. -/
def allowed_patterns : List String :=
  ["test", "@Test", "it\\(", "describe\\(", "def test_", "@pytest",
   "public.*test", "private.*test", "protected.*test"]

/-- Python's `allowed in pattern` substring test. -/
def hasSub (pat s : String) : Bool := containsSub pat.toList s.toList

/-- The security validation of `grep_pattern` (`lesson_3.py` line 70): the
pattern is permitted iff some allow-list entry occurs in it as a substring. -/
def patternAllowed (pattern : String) : Bool :=
  allowed_patterns.any (fun a => hasSub a pattern)

/-- Characters `shlex.quote` leaves unquoted: ASCII alphanumerics and
underscore, at-sign, percent, plus, equals, colon, comma, dot, slash, dash. -/
def shlexSafe (c : Char) : Bool :=
  c.isAlphanum || c == '_' || c == '@' || c == '%' || c == '+' || c == '=' ||
    c == ':' || c == ',' || c == '.' || c == '/' || c == '-'

/-- Python `shlex.quote`: safe strings pass through; anything else is wrapped
in single quotes with embedded quotes escaped as in CPython. -/
def shlexQuote (s : String) : String :=
  if s = "" then "''"
  else if s.toList.all shlexSafe then s
  else "'" ++ String.join (s.toList.map
    (fun c => if c = '\'' then "'\"'\"'" else String.singleton c)) ++ "'"

/-- `grep_pattern` (`lesson_3.py` lines 48–82) with the two collaborators as
parameters: `fileOk` is the file-existence check, and `runGrep` is the
subprocess boundary mapping grep's pattern argument (the code passes
`shlex.quote(pattern)` in the argv) and the case flag to the stripped stdout. -/
def grep_pattern (fileOk : Bool) (runGrep : String → Bool → String)
    (pattern : String) (case_insensitive : Bool) : String :=
  if !fileOk then "Error: File does not exist or is not a regular file"
  else if !(patternAllowed pattern) then "Error: Pattern not allowed for security reasons"
  else
    let out := runGrep (shlexQuote pattern) case_insensitive
    if out = "" then "No matches found" else out

/-- C10: the security validation rejects a pattern iff no fixed marker string
occurs in it as a substring; consequently any pattern containing a marker —
arbitrary regexes included — is accepted, and for accepted patterns the
output is whatever the grep subprocess returns, the validation itself leaving
the pattern unchanged. -/
theorem grep_pattern_validation (pattern : String) (runGrep : String → Bool → String)
    (ci : Bool) :
    (patternAllowed pattern = false ↔
      ∀ a ∈ allowed_patterns, ¬ ∃ pre post, pattern.toList = pre ++ a.toList ++ post) ∧
    (∀ a ∈ allowed_patterns, (∃ pre post, pattern.toList = pre ++ a.toList ++ post) →
      patternAllowed pattern = true) ∧
    (patternAllowed pattern = true →
      grep_pattern true runGrep pattern ci =
        (if runGrep (shlexQuote pattern) ci = "" then "No matches found"
         else runGrep (shlexQuote pattern) ci)) ∧
    (patternAllowed pattern = false →
      grep_pattern true runGrep pattern ci = "Error: Pattern not allowed for security reasons") := by
  have hiff : patternAllowed pattern = true ↔
      ∃ a ∈ allowed_patterns, ∃ pre post, pattern.toList = pre ++ a.toList ++ post := by
    unfold patternAllowed hasSub
    rw [List.any_eq_true]
    constructor
    · rintro ⟨a, ha, hc⟩
      exact ⟨a, ha, containsSub_iff.mp hc⟩
    · rintro ⟨a, ha, hd⟩
      exact ⟨a, ha, containsSub_iff.mpr hd⟩
  refine ⟨?_, ?_, ?_, ?_⟩
  · constructor
    · intro hfalse a ha hd
      rw [hiff.mpr ⟨a, ha, hd⟩] at hfalse
      exact Bool.noConfusion hfalse
    · intro hall
      cases hb : patternAllowed pattern with
      | false => rfl
      | true =>
        obtain ⟨a, ha, hd⟩ := hiff.mp hb
        exact absurd hd (hall a ha)
  · intro a ha hd
    exact hiff.mpr ⟨a, ha, hd⟩
  · intro htrue
    simp [grep_pattern, htrue]
  · intro hfalse
    simp [grep_pattern, hfalse]

/-- Grep subprocess stub for the closed witness. -/
def stubGrep : String → Bool → String := fun _ _ => "7:protected void testY() \x7b"

/-- Closed instance of `grep_pattern_validation`: the regex `public.*test`
contains the marker `test` (and is itself a marker), so it is accepted and
the grep output is returned. -/
theorem grep_pattern_validation_witness :
    grep_pattern true stubGrep "public.*test" true =
      (if stubGrep (shlexQuote "public.*test") true = "" then "No matches found"
       else stubGrep (shlexQuote "public.*test") true) :=
  (grep_pattern_validation "public.*test" stubGrep true).2.2.1 (by decide)

end TestExtract
